import Mathlib

/-!
Verification development for `vscode_theme_editor/main.py`.

The Python module is embedded shallowly:

* Python strings are `List Char`; machine text I/O is pure data.
* The external `pastel` binary is a black box (per the spec it is out of
  scope), so each subprocess round-trip (stdin joining plus stdout
  strip/split included) is a field of an oracle structure `Pastel`; `none`
  models a non-zero exit status (`subprocess.CalledProcessError`).
* The three files a command touches (theme file, original copy `og_…`,
  replacements file `replacements_….txt`, at the fixed sibling paths that
  `get_paths` derives) are the three fields of a file-system state `FS`;
  `none` means the file does not exist.  A command is a function from `FS`
  to `FS × Option CmdErr`: the state it leaves behind (partial writes
  included) and the exception it raised, if any.
* `re.IGNORECASE` matching is modelled with `Char.toLower`, which covers
  the ASCII range used by hex colors; `re.sub`'s replacement string is
  taken literally (its backslash-template escapes are outside the model).
* `console.print` side effects are modelled as returned log-line lists
  where a claim mentions them.
-/

/-- Python `str.isspace` on the ASCII whitespace characters relevant to
`str.strip()` on this tool's files. -/
def isPySpace (c : Char) : Bool :=
  c = ' ' || c = '\t' || c = '\n' || c = '\r' || c = '\x0b' || c = '\x0c'

/-- Python `str.strip()`: drop leading and trailing whitespace. -/
def pyStrip (s : List Char) : List Char :=
  ((s.dropWhile isPySpace).reverse.dropWhile isPySpace).reverse

/-- Python `str.split(sep)` for a one-character separator: splits at every
occurrence, keeping empty pieces (`"".split` gives `[""]`). -/
def splitOn (sep : Char) : List Char → List (List Char)
  | [] => [[]]
  | c :: cs =>
    if c = sep then [] :: splitOn sep cs
    else
      match splitOn sep cs with
      | [] => [[c]]
      | l :: ls => (c :: l) :: ls

/-- Python `"\n".join(lines)`. -/
def joinLines : List (List Char) → List Char
  | [] => []
  | [l] => l
  | l :: ls => l ++ '\n' :: joinLines ls

/-- Boolean list-prefix test (used to model the regex engine trying a
match at one position). -/
def isPrefB : List Char → List Char → Bool
  | [], _ => true
  | _ :: _, [] => false
  | a :: as, b :: bs => a == b && isPrefB as bs

/-- Boolean substring test: some position of the haystack starts with the
pattern. -/
def isSubB (pat : List Char) : List Char → Bool
  | [] => pat.isEmpty
  | c :: cs => isPrefB pat (c :: cs) || isSubB pat cs

/-- Character-wise lowercasing, the model of `re.IGNORECASE` folding. -/
def lowerL (s : List Char) : List Char := s.map Char.toLower

/-- Case-insensitive occurrence test: `pat` occurs in `hay` up to case. -/
def occursCI (hay pat : List Char) : Bool := isSubB (lowerL pat) (lowerL hay)

/-- Split a list at the first occurrence of `sep`, Python
`line.split(sep, 1)` when `sep in line` (`none` when `sep` is absent). -/
def splitFirst (sep : Char) : List Char → Option (List Char × List Char)
  | [] => none
  | c :: cs =>
    if c = sep then some ([], cs)
    else (splitFirst sep cs).map fun p => (c :: p.1, p.2)

/-- Fuel-indexed engine of `re.sub(re.escape(pat), rep, s, flags=re.IGNORECASE)`
for a non-empty literal pattern: scan left to right, replace each leftmost
non-overlapping case-insensitive occurrence.  `fuel ≥ s.length` makes the
fuel irrelevant. -/
def replaceFuel (pat rep : List Char) : Nat → List Char → List Char
  | _, [] => []
  | 0, s => s
  | fuel + 1, c :: cs =>
    if isPrefB (lowerL pat) (lowerL (c :: cs)) && !pat.isEmpty then
      rep ++ replaceFuel pat rep fuel ((c :: cs).drop pat.length)
    else
      c :: replaceFuel pat rep fuel cs

/-- `re.sub(re.escape(pat), rep, s, flags=re.IGNORECASE)` for a non-empty
pattern. -/
def replaceCI (pat rep s : List Char) : List Char := replaceFuel pat rep s.length s

/-- `apply_color_replacement(content, old, new)` (main.py lines 63-69):
returns the new content together with the `console.print` log lines.  If
`old == new` the content is returned unchanged with no log; otherwise the
substitution is logged and every case-insensitive occurrence of `old` is
replaced by `new`.  An empty `old` reproduces `re.sub`'s empty-pattern
behaviour of inserting `new` at every position. -/
def apply_color_replacement (content old new : List Char) : List Char × List (List Char) :=
  if old = new then (content, [])
  else
    (if old.isEmpty then new ++ (content.map fun c => c :: new).flatten
     else replaceCI old new content,
     ["replacing ".toList ++ old ++ " with ".toList ++ new])

/-- The `reduce` in `apply` (main.py lines 127-131): left fold of
`apply_color_replacement` over the pairs, starting from the original-copy
content. -/
def applyReplacements (pairs : List (List Char × List Char)) (content : List Char) : List Char :=
  pairs.foldl (fun acc p => (apply_color_replacement acc p.1 p.2).1) content

/-- `read_replacements` (main.py lines 56-60): strip the whole file text,
split into lines, and for each line that is non-empty and contains a space
character, split at the first space and strip both tokens.  Other lines
are skipped. -/
def read_replacements (content : List Char) : List (List Char × List Char) :=
  (splitOn '\n' (pyStrip content)).filterMap fun line =>
    if !line.isEmpty && line.contains ' ' then
      some (pyStrip (line.takeWhile fun c => c != ' '),
            pyStrip ((line.dropWhile fun c => c != ' ').drop 1))
    else none

/-- Written from the claim's words (not from the source), for comparison:
parse each non-empty line by splitting on the first WHITESPACE run into
two trimmed tokens; lines containing no whitespace are skipped. -/
def read_replacements_spec (content : List Char) : List (List Char × List Char) :=
  (splitOn '\n' (pyStrip content)).filterMap fun line =>
    if !line.isEmpty && line.any isPySpace then
      some (pyStrip (line.takeWhile fun c => !isPySpace c),
            pyStrip (line.dropWhile fun c => !isPySpace c))
    else none

/-- The amended reading of the claim: split each line at its first SPACE
character into two trimmed tokens; a line with no space (even one holding
other whitespace such as a tab) is skipped.  Written with `splitFirst`,
independently of the `takeWhile`/`dropWhile` mechanics of
`read_replacements`. -/
def read_replacements_amended (content : List Char) : List (List Char × List Char) :=
  (splitOn '\n' (pyStrip content)).filterMap fun line =>
    match splitFirst ' ' line with
    | some p => some (pyStrip p.1, pyStrip p.2)
    | none => none

/-- One hex digit, the class `[0-9a-fA-F]` of the extraction regex. -/
def isHexDigit (c : Char) : Bool :=
  ('0' ≤ c && c ≤ '9') || ('a' ≤ c && c ≤ 'f') || ('A' ≤ c && c ≤ 'F')

/-- Fuel-indexed scanner for `re.findall(r'"(#[0-9a-fA-F]+?)"', content)`:
at a `"#` the following maximal hex-digit run must be non-empty and be
closed by `"`; on success the captured `#digits` is collected and scanning
resumes after the closing quote, on failure scanning advances one
character (the regex engine retries from the next position). -/
def findHexFuel : Nat → List Char → List (List Char)
  | 0, _ => []
  | _ + 1, [] => []
  | fuel + 1, c :: rest =>
    match c, rest with
    | '"', '#' :: rest2 =>
      (match rest2.dropWhile isHexDigit with
       | '"' :: tail =>
         if (rest2.takeWhile isHexDigit).isEmpty then findHexFuel fuel rest
         else ('#' :: rest2.takeWhile isHexDigit) :: findHexFuel fuel tail
       | _ => findHexFuel fuel rest)
    | _, _ => findHexFuel fuel rest

/-- All captures of the extraction regex over the content, in scan order. -/
def findHexColors (s : List Char) : List (List Char) := findHexFuel s.length s

/-- `list(set(colors))` (main.py line 15): deduplication.  CPython's set
iteration order is unspecified; first occurrences are kept here. -/
def dedupFirst (l : List (List Char)) : List (List Char) :=
  l.foldl (fun acc x => if x ∈ acc then acc else acc ++ [x]) []

/-- The external `pastel` binary, a black box per the spec.  Each field is
one subprocess round-trip (stdin newline-joining and stdout strip/split
included); `none` models a non-zero exit status, which `check=True` turns
into a raised `CalledProcessError`. -/
structure Pastel where
  sortHue : List (List Char) → Option (List (List Char))
  sortLum : List (List Char) → Option (List (List Char))
  formatHex : List Char → Option (List Char)
  transform : List Char → List Char → Option (List Char)

/-- Sequential traversal of the `pastel format hex` list comprehension
(main.py lines 37-47): the first failing invocation aborts the whole
extraction. -/
def mapMOpt (f : List Char → Option (List Char)) : List (List Char) → Option (List (List Char))
  | [] => some []
  | x :: xs =>
    match f x with
    | none => none
    | some y =>
      match mapMOpt f xs with
      | none => none
      | some ys => some (y :: ys)

/-- `extract_colors` (main.py lines 14-47): regex scan, dedup, early
return on no colors, then hue sort, luminance sort, and per-color hex
formatting of the non-empty lines; `none` is a propagated
`CalledProcessError`. -/
def extract_colors (o : Pastel) (content : List Char) : Option (List (List Char)) :=
  let colors := dedupFirst (findHexColors content)
  if colors.isEmpty then some []
  else
    match o.sortHue colors with
    | none => none
    | some hueSorted =>
      match o.sortLum hueSorted with
      | none => none
      | some lumSorted => mapMOpt o.formatHex (lumSorted.filter fun c => !c.isEmpty)

/-- The error line `run_pastel_command` prints on a failed invocation
(main.py line 93), up to the appended exception repr. -/
def pastelErrMsg (command color : List Char) : List Char :=
  "ERROR: pastel ".toList ++ command ++ " failed for ".toList ++ color

/-- `run_pastel_command(color, command)` (main.py lines 72-94): run the
operation, re-format its output to hex; if either invocation fails, log an
error naming the command and the color and return the input color
unchanged.  Returns the resulting color with the log lines. -/
def run_pastel_command (o : Pastel) (color command : List Char) : List Char × List (List Char) :=
  match o.transform command color with
  | none => (color, [pastelErrMsg command color])
  | some out =>
    match o.formatHex out with
    | none => (color, [pastelErrMsg command color])
    | some hex => (hex, [])

/-- The three files of one theme, at the sibling paths of `get_paths`
(main.py lines 50-53); `none` = the file does not exist. -/
structure FS where
  theme : Option (List Char)
  og : Option (List Char)
  repl : Option (List Char)
deriving DecidableEq, Repr

/-- The exceptions a command can raise: `typer.BadParameter`, a
`FileNotFoundError` from `read_text()` on a missing file, and a
`CalledProcessError` propagated out of `extract_colors`. -/
inductive CmdErr where
  | badParameter
  | fileNotFound
  | subprocessError
deriving DecidableEq, Repr

/-- The `init` command (main.py lines 97-112): require the theme file,
snapshot it to the original copy only if none exists, extract colors from
the original copy, and overwrite the replacements file with the identity
mapping. -/
def initCmd (o : Pastel) (fs : FS) : FS × Option CmdErr :=
  match fs.theme with
  | none => (fs, some CmdErr.badParameter)
  | some themeContent =>
    let ogContent := fs.og.getD themeContent
    let fs1 : FS := { fs with og := some ogContent }
    match extract_colors o ogContent with
    | none => (fs1, some CmdErr.subprocessError)
    | some colors =>
      ({ fs1 with repl := some (joinLines (colors.map fun c => c ++ ' ' :: c)) }, none)

/-- The `apply` command (main.py lines 115-134): require the theme file,
then the replacements file, read the original copy (raising if it is
missing), fold the substitutions over it, and write the theme file. -/
def applyCmd (fs : FS) : FS × Option CmdErr :=
  match fs.theme with
  | none => (fs, some CmdErr.badParameter)
  | some _ =>
    match fs.repl with
    | none => (fs, some CmdErr.badParameter)
    | some replContent =>
      match fs.og with
      | none => (fs, some CmdErr.fileNotFound)
      | some ogContent =>
        let finalContent := applyReplacements (read_replacements replContent) ogContent
        ({ fs with theme := some finalContent }, none)

/-- The `run` command (main.py lines 137-166): require only the
replacements file, fold the pastel commands over each pair's current
color, rewrite the replacements file, then invoke `apply` — which is
where a missing theme file is first noticed. -/
def runCmd (o : Pastel) (cmds : List (List Char)) (fs : FS) : FS × Option CmdErr :=
  match fs.repl with
  | none => (fs, some CmdErr.badParameter)
  | some replContent =>
    let newPairs := (read_replacements replContent).map fun p =>
      (p.1, cmds.foldl (fun color c => (run_pastel_command o color c).1) p.2)
    let fs1 : FS := { fs with repl := some (joinLines (newPairs.map fun p => p.1 ++ ' ' :: p.2)) }
    applyCmd fs1

/-- An oracle whose every invocation fails, for exercising the failure
paths. -/
def noneOracle : Pastel where
  sortHue := fun _ => none
  sortLum := fun _ => none
  formatHex := fun _ => none
  transform := fun _ _ => none

/-- An oracle that fails the transform exactly on the color `#AAA` and
appends `!` to every other color, for the per-color absorption scenario. -/
def failOracle : Pastel where
  sortHue := fun l => some l
  sortLum := fun l => some l
  formatHex := fun c => some c
  transform := fun _ c => if c = "#AAA".toList then none else some (c ++ "!".toList)

/-- The file-system state of a `run` invocation with the theme file
missing but the replacements file present (one well-formed and one
malformed line). -/
def cexFS : FS where
  theme := none
  og := some "x".toList
  repl := some "#AAA #BBB\njunk".toList

/-- A two-entry identity mapping alongside an existing theme, for the
per-color failure-absorption scenario of `run`. -/
def c7FS : FS where
  theme := some "T".toList
  og := some "T".toList
  repl := some "#AAA #AAA\n#BBB #BBB".toList

/-- A state with theme, original copy, and a one-entry identity mapping,
for the identity-mapping scenario. -/
def idFS : FS where
  theme := some "T".toList
  og := some "OG #112233".toList
  repl := some "#112233 #112233".toList

/-- A state whose original copy is missing while theme and replacements
exist, for the `apply` abort scenario. -/
def noOgFS : FS where
  theme := some "T".toList
  og := none
  repl := some "#A #B".toList

/-- A state whose replacements file holds a blank line and a malformed
line besides two well-formed pairs. -/
def messyFS : FS where
  theme := some "T".toList
  og := some "T".toList
  repl := some "#A #B\n\nbad\n#C #D".toList

/-! ### Helper lemmas -/

theorem applyCmd_og_eq (fs : FS) : (applyCmd fs).1.og = fs.og := by
  obtain ⟨t, og, r⟩ := fs
  cases t <;> cases og <;> cases r <;> rfl

theorem applyCmd_repl_eq (fs : FS) : (applyCmd fs).1.repl = fs.repl := by
  obtain ⟨t, og, r⟩ := fs
  cases t <;> cases og <;> cases r <;> rfl

theorem lowerL_cons (c : Char) (cs : List Char) :
    lowerL (c :: cs) = c.toLower :: lowerL cs := rfl

theorem lowerL_append (a b : List Char) : lowerL (a ++ b) = lowerL a ++ lowerL b :=
  List.map_append _ a b

theorem isPrefB_nil_left (s : List Char) : isPrefB [] s = true := by
  cases s <;> rfl

theorem isPrefB_self_append (p r : List Char) : isPrefB p (p ++ r) = true := by
  induction p with
  | nil => exact isPrefB_nil_left r
  | cons a as ih => simpa [isPrefB] using ih

theorem isPrefB_of_eq_nil (t : List Char) (h : isPrefB t [] = true) : t = [] := by
  cases t with
  | nil => rfl
  | cons a as => simp [isPrefB] at h

theorem isSubB_of_isPrefB (p s : List Char) (h : isPrefB p s = true) :
    isSubB p s = true := by
  cases s with
  | nil => simpa [isSubB, List.isEmpty_iff] using isPrefB_of_eq_nil p h
  | cons c cs => simp [isSubB, h]

theorem isSubB_append_of_disjoint (pat X Y : List Char) (hpat : pat ≠ [])
    (hd : ∀ a ∈ pat, a ∉ X) : isSubB pat (X ++ Y) = isSubB pat Y := by
  induction X with
  | nil => rfl
  | cons x X ih =>
    obtain ⟨p, ps, rfl⟩ : ∃ p ps, pat = p :: ps := by
      cases pat with
      | nil => exact absurd rfl hpat
      | cons p ps => exact ⟨p, ps, rfl⟩
    have hpx : (p == x) = false := by
      have := hd p (List.mem_cons_self p ps)
      simp only [List.mem_cons, not_or] at this
      simpa using this.1
    have hrest : ∀ a ∈ p :: ps, a ∉ X := by
      intro a ha
      have := hd a ha
      simp only [List.mem_cons, not_or] at this
      exact this.2
    calc isSubB (p :: ps) (x :: X ++ Y)
        = (isPrefB (p :: ps) (x :: (X ++ Y)) || isSubB (p :: ps) (X ++ Y)) := rfl
      _ = isSubB (p :: ps) (X ++ Y) := by simp [isPrefB, hpx]
      _ = isSubB (p :: ps) Y := ih hrest

theorem lowerL_eq_nil_iff (s : List Char) : lowerL s = [] ↔ s = [] := by
  cases s <;> simp [lowerL]

theorem isPrefB_lower_replaceFuel (old cur : List Char) (hcur : cur ≠ []) :
    ∀ fuel s t, s.length ≤ fuel →
      (∀ a ∈ t, ∀ b ∈ cur, a.toLower ≠ b.toLower) →
      isPrefB (lowerL t) (lowerL (replaceFuel old cur fuel s)) = true →
      isPrefB (lowerL t) (lowerL s) = true := by
  intro fuel
  induction fuel with
  | zero =>
    intro s t hs _ h
    have hsnil : s = [] := List.eq_nil_of_length_eq_zero (Nat.le_zero.mp hs)
    subst hsnil
    simpa using h
  | succ f ih =>
    intro s t hs hd h
    match s with
    | [] => simpa using h
    | c :: cs =>
      simp only [replaceFuel] at h
      by_cases hm : (isPrefB (lowerL old) (lowerL (c :: cs)) && !old.isEmpty) = true
      · rw [if_pos hm] at h
        cases t with
        | nil => exact isPrefB_nil_left _
        | cons t1 ts =>
          obtain ⟨b, bs, rfl⟩ : ∃ b bs, cur = b :: bs := by
            cases cur with
            | nil => exact absurd rfl hcur
            | cons b bs => exact ⟨b, bs, rfl⟩
          rw [lowerL_append] at h
          simp only [lowerL_cons, List.cons_append, isPrefB, Bool.and_eq_true, beq_iff_eq] at h
          exact absurd h.1 (hd t1 (List.mem_cons_self t1 ts) b (List.mem_cons_self b bs))
      · rw [if_neg hm] at h
        cases t with
        | nil => exact isPrefB_nil_left _
        | cons t1 ts =>
          simp only [lowerL_cons, isPrefB, Bool.and_eq_true] at h ⊢
          have hts : ∀ a ∈ ts, ∀ b ∈ cur, a.toLower ≠ b.toLower := fun a ha =>
            hd a (List.mem_cons_of_mem t1 ha)
          have hlen : cs.length ≤ f := by
            simpa using Nat.lt_succ_iff.mp (Nat.lt_of_lt_of_le (by simp) hs)
          exact ⟨h.1, ih cs ts hlen hts h.2⟩

theorem isSubB_lower_replaceFuel_eq_false (old cur : List Char) (hold : old ≠ [])
    (hcur : cur ≠ []) (hdisj : ∀ a ∈ old, ∀ b ∈ cur, a.toLower ≠ b.toLower) :
    ∀ fuel s, s.length ≤ fuel →
      isSubB (lowerL old) (lowerL (replaceFuel old cur fuel s)) = false := by
  have hlownil : lowerL old ≠ [] := fun h => hold ((lowerL_eq_nil_iff old).mp h)
  have hnilcase : isSubB (lowerL old) (lowerL []) = false := by
    cases hlo : lowerL old with
    | nil => exact absurd hlo hlownil
    | cons x xs => simp [lowerL, isSubB]
  intro fuel
  induction fuel with
  | zero =>
    intro s hs
    have hsnil : s = [] := List.eq_nil_of_length_eq_zero (Nat.le_zero.mp hs)
    subst hsnil
    simpa using hnilcase
  | succ f ih =>
    intro s hs
    match s with
    | [] => simpa using hnilcase
    | c :: cs =>
      simp only [replaceFuel]
      have hoe : old.isEmpty = false := by
        cases old with
        | nil => exact absurd rfl hold
        | cons o os => rfl
      have hlen : cs.length ≤ f := by
        simpa using Nat.lt_succ_iff.mp (Nat.lt_of_lt_of_le (by simp) hs)
      by_cases hm : (isPrefB (lowerL old) (lowerL (c :: cs)) && !old.isEmpty) = true
      · rw [if_pos hm, lowerL_append]
        have hdchar : ∀ a ∈ lowerL old, a ∉ lowerL cur := by
          intro a ha hmem
          obtain ⟨x, hx, rfl⟩ := List.mem_map.mp ha
          obtain ⟨y, hy, hxy⟩ := List.mem_map.mp hmem
          exact hdisj x hx y hy hxy.symm
        rw [isSubB_append_of_disjoint _ _ _ hlownil hdchar]
        have hdlen : ((c :: cs).drop old.length).length ≤ f := by
          have : old.length ≥ 1 := by
            cases old with
            | nil => exact absurd rfl hold
            | cons o os => simp
          simp only [List.length_drop, List.length_cons]
          omega
        exact ih _ hdlen
      · rw [if_neg hm]
        simp only [lowerL_cons, isSubB, Bool.or_eq_false_iff]
        refine ⟨?_, ih cs hlen⟩
        by_contra hpre
        have hpre2 : isPrefB (lowerL old) (Char.toLower c :: lowerL (replaceFuel old cur f cs)) = true := by
          cases hb : isPrefB (lowerL old) (Char.toLower c :: lowerL (replaceFuel old cur f cs)) with
          | true => rfl
          | false => exact absurd hb hpre
        obtain ⟨o, os, rfl⟩ : ∃ o os, old = o :: os := by
          cases old with
          | nil => exact absurd rfl hold
          | cons o os => exact ⟨o, os, rfl⟩
        simp only [lowerL_cons, isPrefB, Bool.and_eq_true] at hpre2
        have hos : ∀ a ∈ os, ∀ b ∈ cur, a.toLower ≠ b.toLower := fun a ha =>
          hdisj a (List.mem_cons_of_mem o ha)
        have htransfer := isPrefB_lower_replaceFuel (o :: os) cur hcur f cs os hlen hos hpre2.2
        apply hm
        simp only [lowerL_cons, isPrefB, Bool.and_eq_true, hoe, Bool.not_false, and_true]
        exact ⟨hpre2.1, htransfer⟩

theorem isSubB_rep_replaceFuel (old cur : List Char) (hold : old ≠ []) :
    ∀ fuel s, s.length ≤ fuel → isSubB (lowerL old) (lowerL s) = true →
      isSubB cur (replaceFuel old cur fuel s) = true := by
  have hlownil : lowerL old ≠ [] := fun h => hold ((lowerL_eq_nil_iff old).mp h)
  intro fuel
  induction fuel with
  | zero =>
    intro s hs h
    have hsnil : s = [] := List.eq_nil_of_length_eq_zero (Nat.le_zero.mp hs)
    subst hsnil
    simp only [lowerL, List.map_nil, isSubB, List.isEmpty_iff] at h
    exact absurd h hlownil
  | succ f ih =>
    intro s hs h
    match s with
    | [] =>
      simp only [lowerL, List.map_nil, isSubB, List.isEmpty_iff] at h
      exact absurd h hlownil
    | c :: cs =>
      simp only [replaceFuel]
      have hlen : cs.length ≤ f := by
        simpa using Nat.lt_succ_iff.mp (Nat.lt_of_lt_of_le (by simp) hs)
      by_cases hm : (isPrefB (lowerL old) (lowerL (c :: cs)) && !old.isEmpty) = true
      · rw [if_pos hm]
        exact isSubB_of_isPrefB cur _ (isPrefB_self_append cur _)
      · rw [if_neg hm]
        have hoe : old.isEmpty = false := by
          cases old with
          | nil => exact absurd rfl hold
          | cons o os => rfl
        simp only [lowerL_cons, isSubB, Bool.or_eq_true] at h
        rcases h with hpre | hsub
        · have hcond : (isPrefB (lowerL old) (lowerL (c :: cs)) && !old.isEmpty) = true := by
            simp only [Bool.and_eq_true, hoe, Bool.not_false, and_true]
            simpa only [lowerL_cons] using hpre
          exact absurd hcond hm
        · have hrec : isSubB cur (replaceFuel old cur f cs) = true := by
            apply ih cs hlen
            simpa only [lowerL] using hsub
          simp only [isSubB, Bool.or_eq_true]
          exact Or.inr hrec

theorem splitFirst_of_not_contains (sep : Char) (l : List Char)
    (h : l.contains sep = false) : splitFirst sep l = none := by
  induction l with
  | nil => rfl
  | cons c cs ih =>
    simp only [List.contains_cons, Bool.or_eq_false_iff, beq_eq_false_iff_ne] at h
    rw [splitFirst, if_neg (Ne.symm h.1), ih h.2]
    rfl

theorem splitFirst_of_contains (sep : Char) (l : List Char)
    (h : l.contains sep = true) :
    splitFirst sep l
      = some (l.takeWhile (fun c => c != sep), (l.dropWhile (fun c => c != sep)).drop 1) := by
  induction l with
  | nil => simp [List.contains] at h
  | cons c cs ih =>
    by_cases hc : c = sep
    · subst hc
      simp [splitFirst, List.takeWhile, List.dropWhile]
    · have hcs : cs.contains sep = true := by
        simp only [List.contains_cons, Bool.or_eq_true, beq_iff_eq] at h
        rcases h with h | h
        · exact absurd h.symm hc
        · exact h
      have hne : (c != sep) = true := by simpa using hc
      simp only [splitFirst, if_neg hc, ih hcs, Option.map_some, List.takeWhile_cons, hne,
        List.dropWhile_cons, if_pos rfl]
      simp

/-! ### Claim theorems -/

/-- C1: substitution pairs are applied as a sequential left fold in file
order, each pair acting on the cumulative result of the earlier ones; in
particular the pairs `[(#AAA, #BBB), (#BBB, #CCC)]` applied to `#AAA`
cascade to `#CCC`, not `#BBB`. -/
theorem C1_sequential_fold_cascades :
    applyReplacements [("#AAA".toList, "#BBB".toList), ("#BBB".toList, "#CCC".toList)]
        "#AAA".toList = "#CCC".toList
    ∧ ∀ (ps qs : List (List Char × List Char)) (c : List Char),
        applyReplacements (ps ++ qs) c = applyReplacements qs (applyReplacements ps c) := by
  refine ⟨by decide, ?_⟩
  intro ps qs c
  simp [applyReplacements, List.foldl_append]

/-- C4 counterexample: for the pair (old, current) = (`A`, `BA`) with
`old ≠ current` and content `A` (a single pair, so no cascading overlap
with other pairs), the substituted content `BA` still contains a
case-insensitive occurrence of `old`, refuting the claim as stated. -/
theorem C4_counterexample_self_overlap :
    "A".toList ≠ "BA".toList
    ∧ occursCI (apply_color_replacement "A".toList "A".toList "BA".toList).1 "A".toList
        = true := by
  decide

/-- C4 (amended): for every content and pair (old, current) with old and
current non-empty and sharing no character case-insensitively (which
forces old ≠ current), the substituted content contains no
case-insensitive occurrence of old, and contains current whenever old
occurred in the content. -/
theorem C4_amended_replacement_complete (content old cur : List Char)
    (hne : old ≠ []) (hcne : cur ≠ [])
    (hdisj : ∀ a ∈ old, ∀ b ∈ cur, a.toLower ≠ b.toLower) :
    occursCI (apply_color_replacement content old cur).1 old = false
    ∧ (occursCI content old = true →
        isSubB cur (apply_color_replacement content old cur).1 = true) := by
  have holdcur : old ≠ cur := by
    intro heq
    cases old with
    | nil => exact hne rfl
    | cons o os =>
      subst heq
      exact hdisj o (List.mem_cons_self o os) o (List.mem_cons_self o os) rfl
  have hoe : old.isEmpty = false := by
    cases old with
    | nil => exact absurd rfl hne
    | cons o os => rfl
  have hres : (apply_color_replacement content old cur).1 = replaceCI old cur content := by
    simp [apply_color_replacement, holdcur, hoe]
  rw [hres]
  unfold replaceCI occursCI
  exact ⟨isSubB_lower_replaceFuel_eq_false old cur hne hcne hdisj content.length content le_rfl,
    fun h => isSubB_rep_replaceFuel old cur hne content.length content le_rfl h⟩

/-- C4 witness: a concrete instance of the amended theorem, with old =
`abc`, current = `xyz` (non-empty, no shared character up to case) and
content `zABCz`. -/
theorem C4_amended_replacement_complete_witness :
    ("abc".toList ≠ ([] : List Char) ∧ "xyz".toList ≠ ([] : List Char)
      ∧ ∀ a ∈ "abc".toList, ∀ b ∈ "xyz".toList, a.toLower ≠ b.toLower)
    ∧ (occursCI (apply_color_replacement "zABCz".toList "abc".toList "xyz".toList).1
          "abc".toList = false
       ∧ (occursCI "zABCz".toList "abc".toList = true →
           isSubB "xyz".toList
             (apply_color_replacement "zABCz".toList "abc".toList "xyz".toList).1 = true)) :=
  ⟨⟨by decide, by decide, by decide⟩,
    C4_amended_replacement_complete "zABCz".toList "abc".toList "xyz".toList
      (by decide) (by decide) (by decide)⟩

/-- C3 counterexample: the line `a<TAB>b` contains whitespace but no space
character; the claim's whitespace-run reading parses it into (`a`, `b`),
while `read_replacements` silently skips it, refuting the claim as
stated. -/
theorem C3_counterexample_tab_line :
    read_replacements ('a' :: '\t' :: 'b' :: []) = []
    ∧ read_replacements_spec ('a' :: '\t' :: 'b' :: []) = [(['a'], ['b'])] := by
  constructor <;> decide

/-- C3 (amended): reading the mapping parses each line by splitting at its
first SPACE character into exactly two trimmed tokens, and every line
containing no space character — including blank lines and lines whose only
whitespace is e.g. a tab — is silently skipped rather than raising an
error. -/
theorem C3_amended_first_space (content : List Char) :
    read_replacements content = read_replacements_amended content := by
  unfold read_replacements read_replacements_amended
  apply List.filterMap_congr
  intro line _
  by_cases hc : line.contains ' ' = true
  · have hnonempty : line.isEmpty = false := by
      cases line with
      | nil => simp [List.contains] at hc
      | cons c cs => rfl
    rw [splitFirst_of_contains ' ' line hc]
    simp only [hnonempty, Bool.not_false, Bool.true_and, hc, if_pos rfl]
    simp
  · have hcf : line.contains ' ' = false := by
      cases hcv : line.contains ' ' with
      | true => exact absurd hcv hc
      | false => rfl
    rw [splitFirst_of_not_contains ' ' line hcf]
    simp only [ite_eq_right_iff, Bool.and_eq_true]
    intro hcond
    rw [hcf] at hcond
    exact absurd hcond.2 Bool.false_ne_true

/-- C2 counterexample: on a state with the theme file missing but the
replacements file present, `run` rewrites the replacements file (the
malformed trailing line is dropped) before the nested `apply` raises the
missing-theme error — so a missing theme file does not abort `run` before
all I/O, refuting the claim. -/
theorem C2_counterexample_run_writes_without_theme :
    cexFS.theme = none
    ∧ (runCmd noneOracle ["lighten 0.2".toList] cexFS).2 = some CmdErr.badParameter
    ∧ (runCmd noneOracle ["lighten 0.2".toList] cexFS).1.repl ≠ cexFS.repl := by
  refine ⟨rfl, by decide, by decide⟩

/-- C2 (amended): `init` and `apply` validate theme-file existence and
abort unchanged on a missing theme file; `run` validates only
replacements-file existence up front, and a missing theme file surfaces
only through the nested `apply` — always as an error, never touching the
theme or original-copy files, but possibly after the replacements file has
been rewritten. -/
theorem C2_amended_theme_validation (o : Pastel) (fs : FS) (cmds : List (List Char))
    (h : fs.theme = none) :
    initCmd o fs = (fs, some CmdErr.badParameter)
    ∧ applyCmd fs = (fs, some CmdErr.badParameter)
    ∧ (runCmd o cmds fs).2 = some CmdErr.badParameter
    ∧ (runCmd o cmds fs).1.theme = none
    ∧ (runCmd o cmds fs).1.og = fs.og := by
  obtain ⟨t, og, r⟩ := fs
  simp only [FS.theme] at h
  subst h
  refine ⟨rfl, rfl, ?_⟩
  cases r with
  | none => exact ⟨rfl, rfl, rfl⟩
  | some rc => exact ⟨rfl, rfl, rfl⟩

/-- C2 witness: the amended theorem instantiated on the counterexample
state. -/
theorem C2_amended_theme_validation_witness :
    cexFS.theme = none
    ∧ (initCmd noneOracle cexFS = (cexFS, some CmdErr.badParameter)
       ∧ applyCmd cexFS = (cexFS, some CmdErr.badParameter)
       ∧ (runCmd noneOracle ["lighten 0.2".toList] cexFS).2 = some CmdErr.badParameter
       ∧ (runCmd noneOracle ["lighten 0.2".toList] cexFS).1.theme = none
       ∧ (runCmd noneOracle ["lighten 0.2".toList] cexFS).1.og = cexFS.og) :=
  ⟨rfl, C2_amended_theme_validation noneOracle cexFS ["lighten 0.2".toList] rfl⟩

/-- C5: a pair with identical sides is an identity of the substitution —
it returns the content unchanged and emits no log line; folding a mapping
of identity pairs over any content returns it unchanged; and `apply` on
such a mapping leaves the theme file equal to the original-copy
content. -/
theorem C5_identity_mapping_noop :
    (∀ content old, apply_color_replacement content old old = (content, []))
    ∧ (∀ pairs content, (∀ p ∈ pairs, p.1 = p.2) →
        applyReplacements pairs content = content)
    ∧ (∀ fs t ogc rc, fs.theme = some t → fs.og = some ogc → fs.repl = some rc →
        (∀ p ∈ read_replacements rc, p.1 = p.2) →
        (applyCmd fs).1.theme = some ogc) := by
  have h1 : ∀ content old, apply_color_replacement content old old = (content, []) := by
    intro content old
    simp [apply_color_replacement]
  have h2 : ∀ pairs content, (∀ p ∈ pairs, p.1 = p.2) →
      applyReplacements pairs content = content := by
    intro pairs
    induction pairs with
    | nil => intro content _; rfl
    | cons p ps ih =>
      intro content hid
      have hp : p.1 = p.2 := hid p (List.mem_cons_self p ps)
      have hstep : (apply_color_replacement content p.1 p.2).1 = content := by
        rw [← hp, h1]
      calc applyReplacements (p :: ps) content
          = applyReplacements ps (apply_color_replacement content p.1 p.2).1 := rfl
        _ = applyReplacements ps content := by rw [hstep]
        _ = content := ih content fun q hq => hid q (List.mem_cons_of_mem p hq)
  refine ⟨h1, h2, ?_⟩
  intro fs t ogc rc ht hog hrepl hid
  obtain ⟨a, b, c⟩ := fs
  simp only [FS.theme] at ht
  simp only [FS.og] at hog
  simp only [FS.repl] at hrepl
  subst ht hog hrepl
  simp only [applyCmd, FS.theme]
  rw [h2 _ _ hid]

/-- C5 witness: `apply` on a concrete identity mapping leaves the theme
file equal to the original-copy content. -/
theorem C5_identity_mapping_noop_witness :
    (∀ p ∈ read_replacements "#112233 #112233".toList, p.1 = p.2)
    ∧ (applyCmd idFS).1.theme = some "OG #112233".toList :=
  ⟨by decide,
    C5_identity_mapping_noop.2.2 idFS
      "T".toList "OG #112233".toList "#112233 #112233".toList rfl rfl rfl (by decide)⟩

/-- C6: once the original-copy file exists it is never overwritten —
`init` leaves an existing original copy byte-for-byte unchanged, and
`apply` and `run` never write it at all (their resulting original copy is
exactly the input one, on every state). -/
theorem C6_original_copy_never_overwritten (o : Pastel) (fs : FS) (cmds : List (List Char)) :
    (∀ b, fs.og = some b → (initCmd o fs).1.og = some b)
    ∧ (applyCmd fs).1.og = fs.og
    ∧ (runCmd o cmds fs).1.og = fs.og := by
  refine ⟨?_, applyCmd_og_eq fs, ?_⟩
  · intro b hb
    obtain ⟨t, og, r⟩ := fs
    simp only [FS.og] at hb
    subst hb
    cases t with
    | none => rfl
    | some tc =>
      simp only [initCmd, Option.getD]
      cases extract_colors o b with
      | none => rfl
      | some colors => rfl
  · obtain ⟨t, og, r⟩ := fs
    cases r with
    | none => rfl
    | some rc =>
      simp only [runCmd]
      rw [applyCmd_og_eq]

/-- C6 witness: a second `init` on a state whose original copy already
exists leaves its bytes unchanged, concretely. -/
theorem C6_original_copy_never_overwritten_witness :
    c7FS.og = some "T".toList
    ∧ ((initCmd failOracle c7FS).1.og = some "T".toList
       ∧ (applyCmd c7FS).1.og = c7FS.og
       ∧ (runCmd failOracle ["lighten".toList] c7FS).1.og = c7FS.og) :=
  ⟨rfl, (C6_original_copy_never_overwritten failOracle c7FS ["lighten".toList]).1 _ rfl,
    (C6_original_copy_never_overwritten failOracle c7FS ["lighten".toList]).2.1,
    (C6_original_copy_never_overwritten failOracle c7FS ["lighten".toList]).2.2⟩

/-- C7: a failing transform-pipeline step is absorbed, not propagated —
whichever of the two invocations fails, the step logs an error naming the
command and the color and returns the input color; and concretely, `run`
with an operation failing for `#AAA` but succeeding for `#BBB` leaves the
`#AAA` mapping entry unchanged while the `#BBB` entry updates. -/
theorem C7_step_failure_absorbed :
    (∀ o color cmd, o.transform cmd color = none →
        run_pastel_command o color cmd = (color, [pastelErrMsg cmd color]))
    ∧ (∀ o color cmd out, o.transform cmd color = some out → o.formatHex out = none →
        run_pastel_command o color cmd = (color, [pastelErrMsg cmd color]))
    ∧ (runCmd failOracle ["lighten".toList] c7FS).1.repl
        = some "#AAA #AAA\n#BBB #BBB!".toList := by
  refine ⟨?_, ?_, by decide⟩
  · intro o color cmd h
    simp only [run_pastel_command, h]
  · intro o color cmd out h1 h2
    simp only [run_pastel_command, h1, h2]

/-- C7 witness: the absorption theorem applied to the concrete failing
oracle and the color `#AAA`. -/
theorem C7_step_failure_absorbed_witness :
    failOracle.transform "lighten".toList "#AAA".toList = none
    ∧ run_pastel_command failOracle "#AAA".toList "lighten".toList
        = ("#AAA".toList, [pastelErrMsg "lighten".toList "#AAA".toList]) :=
  ⟨by decide, C7_step_failure_absorbed.1 failOracle "#AAA".toList "lighten".toList (by decide)⟩

/-- C9: when the theme and replacements files exist but the original copy
does not, `apply` raises the file-not-found error from reading the
original copy before writing the theme file, leaving the whole state — in
particular the theme file — unchanged. -/
theorem C9_apply_aborts_without_original (fs : FS) (t r : List Char)
    (ht : fs.theme = some t) (hr : fs.repl = some r) (hog : fs.og = none) :
    applyCmd fs = (fs, some CmdErr.fileNotFound)
    ∧ (applyCmd fs).1.theme = some t := by
  obtain ⟨a, b, c⟩ := fs
  simp only [FS.theme] at ht
  simp only [FS.repl] at hr
  simp only [FS.og] at hog
  subst ht hr hog
  exact ⟨rfl, rfl⟩

/-- C9 witness: the theorem at a concrete state with the original copy
missing. -/
theorem C9_apply_aborts_without_original_witness :
    applyCmd noOgFS = (noOgFS, some CmdErr.fileNotFound)
    ∧ (applyCmd noOgFS).1.theme = some "T".toList :=
  C9_apply_aborts_without_original noOgFS "T".toList "#A #B".toList rfl rfl rfl

/-- C10: `run` rewrites the replacements file to exactly the successfully
parsed pairs — blank and malformed lines are dropped — serialized as
`original current` with each original unchanged and each current the fold
of the pipeline over the old current. -/
theorem C10_run_rewrites_parsed_pairs (o : Pastel) (cmds : List (List Char)) (fs : FS)
    (r : List Char) (h : fs.repl = some r) :
    (runCmd o cmds fs).1.repl
      = some (joinLines ((read_replacements r).map fun p =>
          p.1 ++ ' ' :: cmds.foldl (fun color c => (run_pastel_command o color c).1) p.2)) := by
  obtain ⟨t, og, rr⟩ := fs
  simp only [FS.repl] at h
  subst h
  simp only [runCmd]
  rw [applyCmd_repl_eq]
  simp only [List.map_map]
  rfl

/-- C10 witness: on a replacements file with a blank and a malformed line,
`run` writes back exactly the serialization of the parsed pairs. -/
theorem C10_run_rewrites_parsed_pairs_witness :
    messyFS.repl = some "#A #B\n\nbad\n#C #D".toList
    ∧ (runCmd failOracle ["op".toList] messyFS).1.repl
      = some (joinLines ((read_replacements "#A #B\n\nbad\n#C #D".toList).map fun p =>
          p.1 ++ ' ' :: ["op".toList].foldl
            (fun color c => (run_pastel_command failOracle color c).1) p.2)) :=
  ⟨rfl, C10_run_rewrites_parsed_pairs failOracle ["op".toList]
    messyFS "#A #B\n\nbad\n#C #D".toList rfl⟩

/-- C8: during color extraction every external invocation failing
(non-zero exit) aborts extraction — a failed hue sort, luminance sort, or
hex format yields `none` — and extraction never returns a list unless the
color set was empty or every performed invocation succeeded. -/
theorem C8_extract_aborts_on_failure :
    (∀ o content, dedupFirst (findHexColors content) ≠ [] →
        o.sortHue (dedupFirst (findHexColors content)) = none →
        extract_colors o content = none)
    ∧ (∀ o content hs, dedupFirst (findHexColors content) ≠ [] →
        o.sortHue (dedupFirst (findHexColors content)) = some hs →
        o.sortLum hs = none → extract_colors o content = none)
    ∧ (∀ o content hs ls, dedupFirst (findHexColors content) ≠ [] →
        o.sortHue (dedupFirst (findHexColors content)) = some hs →
        o.sortLum hs = some ls →
        mapMOpt o.formatHex (ls.filter fun c => !c.isEmpty) = none →
        extract_colors o content = none)
    ∧ (∀ o content res, extract_colors o content = some res →
        (dedupFirst (findHexColors content) = [] ∧ res = [])
        ∨ ∃ hs ls, o.sortHue (dedupFirst (findHexColors content)) = some hs
            ∧ o.sortLum hs = some ls
            ∧ mapMOpt o.formatHex (ls.filter fun c => !c.isEmpty) = some res) := by
  have hempty : ∀ l : List (List Char), l ≠ [] → l.isEmpty = false := by
    intro l hl
    cases l with
    | nil => exact absurd rfl hl
    | cons x xs => rfl
  refine ⟨?_, ?_, ?_, ?_⟩
  · intro o content hne hhue
    simp [extract_colors, hempty _ hne, hhue]
  · intro o content hs hne hhue hlum
    simp [extract_colors, hempty _ hne, hhue, hlum]
  · intro o content hs ls hne hhue hlum hfmt
    simp [extract_colors, hempty _ hne, hhue, hlum, hfmt]
  · intro o content res h
    simp only [extract_colors] at h
    split at h
    next hcond =>
      left
      have hnil : dedupFirst (findHexColors content) = [] := by
        simpa [List.isEmpty_iff] using hcond
      simp only [Option.some_inj] at h
      exact ⟨hnil, h.symm⟩
    next hcond =>
      right
      split at h
      next => exact absurd h (by simp)
      next hs hhue =>
        split at h
        next => exact absurd h (by simp)
        next ls hlum => exact ⟨hs, ls, hhue, hlum, h⟩

/-- C8 witness: the abort theorem at a concrete content holding one quoted
hex color and the all-failing oracle. -/
theorem C8_extract_aborts_on_failure_witness :
    dedupFirst (findHexColors "\"#AB\"".toList) ≠ []
    ∧ noneOracle.sortHue (dedupFirst (findHexColors "\"#AB\"".toList)) = none
    ∧ extract_colors noneOracle "\"#AB\"".toList = none :=
  ⟨by decide, by decide,
    C8_extract_aborts_on_failure.1 noneOracle "\"#AB\"".toList (by decide) (by decide)⟩
